import Mathlib

/-!
Shallow embedding of the arithmetic-modernization scanner (src/app/app.py).

The Python code detects four obsolete statement forms
(ADD v TO t. / SUBTRACT v FROM t. / MULTIPLY v BY t. / DIVIDE v BY t.)
in the source text of a code unit via the regular expression ARITH_RE,
and builds one Finding per match.

The regex is

    ^\s* (ADD \s+ \w+ \s+ TO \s+ \w+ | SUBTRACT ... FROM ... |
          MULTIPLY ... BY ... | DIVIDE ... BY ...) \.
    with IGNORECASE and MULTILINE.

Because the word class and the whitespace class are disjoint, each
quantifier in the pattern is followed by a token from the complementary
class, and the four alternatives start with four distinct letters, the
regex engine behaves exactly as a deterministic maximal-munch parser:
no backtracking can change the outcome.  We embed the matcher as such a
parser.  Character classes are modelled over their ASCII meaning
(Python uses the Unicode classes; the statements of interest are ASCII).
`re.finditer` is embedded as a scan that, from the current position,
tries every position in increasing order (the MULTILINE `^` anchor is
the line-start test) and resumes after the end of each match, so
matches are non-overlapping and found left to right.
-/

namespace App

/-- ASCII model of the Python regex class `\s`. -/
def isSpacePy (c : Char) : Bool :=
  c == ' ' || c == '\t' || c == '\n' || c == '\r' || c == '\x0b' || c == '\x0c'

/-- ASCII model of the Python regex class `\w` (letters, digits, underscore). -/
def isWordPy (c : Char) : Bool :=
  c.isAlphanum || c == '_'

/-- Case-insensitive character comparison (the effect of re.IGNORECASE). -/
def eqCI (a b : Char) : Bool :=
  a.toLower == b.toLower

/-- Pointwise case-insensitive equality of two character lists. -/
def ciEqList : List Char → List Char → Bool
  | [], [] => true
  | a :: as, b :: bs => eqCI a b && ciEqList as bs
  | _, _ => false

/-- Statement kinds recognised by ARITH_RE (the four alternatives). -/
inductive Kind where
  | ADD | SUBTRACT | MULTIPLY | DIVIDE
deriving Repr, DecidableEq

/-- The keyword of each alternative. -/
def Kind.keyword : Kind → List Char
  | .ADD => ['A', 'D', 'D']
  | .SUBTRACT => ['S', 'U', 'B', 'T', 'R', 'A', 'C', 'T']
  | .MULTIPLY => ['M', 'U', 'L', 'T', 'I', 'P', 'L', 'Y']
  | .DIVIDE => ['D', 'I', 'V', 'I', 'D', 'E']

/-- The middle keyword of each alternative (TO / FROM / BY / BY). -/
def Kind.midword : Kind → List Char
  | .ADD => ['T', 'O']
  | .SUBTRACT => ['F', 'R', 'O', 'M']
  | .MULTIPLY => ['B', 'Y']
  | .DIVIDE => ['B', 'Y']

/-- The string form of the kind, as used by scan_unit for stmt_type. -/
def kindStr : Kind → String
  | .ADD => "ADD"
  | .SUBTRACT => "SUBTRACT"
  | .MULTIPLY => "MULTIPLY"
  | .DIVIDE => "DIVIDE"

/-- Consume a literal keyword case-insensitively; return the rest of
the input on success (the regex literal under IGNORECASE). -/
def matchCI : List Char → List Char → Option (List Char)
  | [], l => some l
  | _ :: _, [] => none
  | p :: ps, c :: cs => if eqCI p c then matchCI ps cs else none

/-- `\s+` : at least one whitespace character, maximal run
(maximality is equivalent to greediness here, see the header note). -/
def takeSpaces1 : List Char → Option (List Char)
  | [] => none
  | c :: cs => if isSpacePy c then some (cs.dropWhile isSpacePy) else none

/-- `\w+` : a maximal nonempty run of word characters; returns the
captured run and the rest. -/
def takeWord1 : List Char → Option (List Char × List Char)
  | [] => none
  | c :: cs =>
    if isWordPy c then some (c :: cs.takeWhile isWordPy, cs.dropWhile isWordPy)
    else none

/-- One alternative of the stmt group followed by the literal period:
`KW \s+ (\w+) \s+ MID \s+ (\w+)` then `\.`.
Returns (value, target, rest after the period). -/
def parseBranch (kw mid l : List Char) : Option (List Char × List Char × List Char) :=
  match matchCI kw l with
  | none => none
  | some r1 =>
    match takeSpaces1 r1 with
    | none => none
    | some r2 =>
      match takeWord1 r2 with
      | none => none
      | some (v, r3) =>
        match takeSpaces1 r3 with
        | none => none
        | some r4 =>
          match matchCI mid r4 with
          | none => none
          | some r5 =>
            match takeSpaces1 r5 with
            | none => none
            | some r6 =>
              match takeWord1 r6 with
              | none => none
              | some (t, r7) =>
                match r7 with
                | '.' :: r8 => some (v, t, r8)
                | _ => none

/-- The alternation of ARITH_RE, tried in source order.  The four
alternatives start with distinct letters, so at most one can consume
its first character; trying them in order is exactly the regex engine
behaviour. -/
def parseArith (l : List Char) : Option (Kind × List Char × List Char × List Char) :=
  match parseBranch Kind.ADD.keyword Kind.ADD.midword l with
  | some (v, t, r) => some (Kind.ADD, v, t, r)
  | none =>
    match parseBranch Kind.SUBTRACT.keyword Kind.SUBTRACT.midword l with
    | some (v, t, r) => some (Kind.SUBTRACT, v, t, r)
    | none =>
      match parseBranch Kind.MULTIPLY.keyword Kind.MULTIPLY.midword l with
      | some (v, t, r) => some (Kind.MULTIPLY, v, t, r)
      | none =>
        match parseBranch Kind.DIVIDE.keyword Kind.DIVIDE.midword l with
        | some (v, t, r) => some (Kind.DIVIDE, v, t, r)
        | none => none

/-- A raw regex match: kind, the two captured operands, the match span
(start inclusive, end exclusive, in character offsets of the exact
input text), and the text of the stmt group (which starts after the
leading `^\s*`, hence after any whitespace glommed into the match). -/
structure RawMatch where
  kind : Kind
  value : List Char
  target : List Char
  mstart : Nat
  mend : Nat
  stmtGroup : List Char
deriving Repr, DecidableEq

/-- The MULTILINE `^` anchor: position 0 or a position just after a
newline character. -/
def isLineStart (src : List Char) (i : Nat) : Bool :=
  i == 0 || src.get? (i - 1) == some '\n'

/-- Attempt the whole pattern `^\s* stmt \.` at offset `i` of `src`. -/
def matchAt (src : List Char) (i : Nat) : Option RawMatch :=
  if isLineStart src i then
    let rest := src.drop i
    let body := rest.dropWhile isSpacePy
    match parseArith body with
    | some (k, v, t, r) =>
      let n := body.length - r.length
      some { kind := k, value := v, target := t,
             mstart := i, mend := i + (rest.length - body.length) + n,
             stmtGroup := body.take (n - 1) }
    | none => none
  else none

/-- The finditer loop: try each position from `p` upward, resume after
the end of a match.  `fuel` bounds the recursion; `findAll` supplies
enough for the whole text.  `max m.mend (p+1)` equals `m.mend` for
every real match (matches are at least five characters long) and makes
progress evident. -/
def scanAux (src : List Char) : Nat → Nat → List RawMatch
  | 0, _ => []
  | fuel + 1, p =>
    if src.length < p then []
    else
      match matchAt src p with
      | some m => m :: scanAux src fuel (max m.mend (p + 1))
      | none => scanAux src fuel (p + 1)

/-- `ARITH_RE.finditer(src)` as a list of raw matches. -/
def findAll (src : List Char) : List RawMatch :=
  scanAux src (src.length + 1) 0

/-- The Finding pydantic model: every field is Optional with default
None; the builder populates all of them. -/
structure Finding where
  prog_name : Option String := none
  incl_name : Option String := none
  types : Option String := none
  blockname : Option String := none
  starting_line : Option Int := none
  ending_line : Option Int := none
  issues_type : Option String := none
  severity : Option String := none
  message : Option String := none
  suggestion : Option String := none
  snippet : Option String := none
deriving Repr, DecidableEq

/-- The Unit pydantic model.  (`Unit` here is App.Unit, shadowing the
core type inside this namespace, matching the source name.) -/
structure Unit where
  pgm_name : String
  inc_name : String
  type : String
  name : Option String := some ""
  class_implementation : Option String := none
  start_line : Int := 0
  end_line : Int := 0
  code : Option String := some ""
  findings : Option (List Finding) := none
deriving Repr, DecidableEq

/-- Python str.strip(): drop whitespace from both ends. -/
def pyStrip (l : List Char) : List Char :=
  ((l.dropWhile isSpacePy).reverse.dropWhile isSpacePy).reverse

/-- extract_exact_line(src, start): the substring from just after the
last newline before `start` (src.rfind bounded by `start`, exclusive)
to the first newline at or after `start` (src.find from `start`),
or the text boundaries. -/
def extract_exact_line (src : List Char) (start : Nat) : List Char :=
  ((src.take start).reverse.takeWhile (fun c => c != '\n')).reverse
    ++ (src.drop start).takeWhile (fun c => c != '\n')

/-- The `.replace("\n", "\\n")` applied to the snippet. -/
def escapeNewlines (l : List Char) : List Char :=
  (l.map (fun c => if c == '\n' then ['\\', 'n'] else [c])).flatten

/-- The fixed operator dictionary of make_finding. -/
def opOf : Kind → String
  | .ADD => "+="
  | .SUBTRACT => "-="
  | .MULTIPLY => "*="
  | .DIVIDE => "/="

/-- make_finding(unit, src, start, end, stmt_type, value, target,
original_stmt).  `end` is unused by the Python body and omitted.
stmt_type is carried as Kind: scan_unit derives it from the keyword
prefix of the stmt group, which is exactly the branch that matched. -/
def make_finding (u : Unit) (src : List Char) (start : Nat) (stmt_type : Kind)
    (value target original_stmt : List Char) : Finding :=
  let abs_start : Int := u.start_line + ((src.take start).count '\n' : Nat)
  let abs_end := abs_start
  let snippet := (escapeNewlines (extract_exact_line src start)).asString
  let suggestion := "Replace '" ++ original_stmt.asString ++ "' with '"
    ++ target.asString ++ " " ++ opOf stmt_type ++ " " ++ value.asString ++ "'."
  { prog_name := some u.pgm_name
    incl_name := some u.inc_name
    types := some u.type
    blockname := u.name
    starting_line := some abs_start
    ending_line := some abs_end
    issues_type := some ("Obsolete" ++ kindStr stmt_type ++ "Usage")
    severity := some ("error")
    message := some ("Obsolete '" ++ kindStr stmt_type ++ "' statement detected.")
    suggestion := some suggestion
    snippet := some snippet }

/-- `unit.code or ""` as a character list. -/
def srcOf (u : Unit) : List Char :=
  (u.code.getD "").toList

/-- The body of the finditer loop of scan_unit for one match: the
stmt group is stripped (a no-op for every real match, since the group
starts with a keyword letter and ends with a word character) and the
dispatch on the upper-cased keyword prefix yields the kind of the
branch that matched. -/
def findingOfMatch (u : Unit) (m : RawMatch) : Finding :=
  make_finding u (srcOf u) m.mstart m.kind m.value m.target (pyStrip m.stmtGroup)

/-- scan_unit(unit): run the matcher over `unit.code or ""`, build one
finding per match, and return a copy of the unit with `findings` set
to the list if nonempty, else None. -/
def scan_unit (u : Unit) : Unit :=
  let fs := (findAll (srcOf u)).map (findingOfMatch u)
  { u with findings := if fs.isEmpty then none else some fs }

/-- Python truthiness of `res.findings` (None and [] are falsy). -/
def findingsTruthy : Option (List Finding) → Bool
  | none => false
  | some l => !l.isEmpty

/-- POST /remediate-array: scan every unit, keep those with truthy
findings, preserving order. -/
def arithmetic_array (units : List Unit) : List Unit :=
  (units.map scan_unit).filter (fun r => findingsTruthy r.findings)

/-- POST /remediate: scan one unit. -/
def arithmetic_single (u : Unit) : Unit :=
  scan_unit u

/-- Spec-side operator table: ADD maps to +=, SUBTRACT to -=, MULTIPLY
to *=, DIVIDE to /=. -/
def operatorFor : Kind → String
  | .ADD => "+="
  | .SUBTRACT => "-="
  | .MULTIPLY => "*="
  | .DIVIDE => "/="

/-- Spec-side rendering of the suggestion for a match: the replacement
keeps the operand order of the legacy statement, target first. -/
def suggestionSpec (k : Kind) (matchedText target value : String) : String :=
  "Replace '" ++ matchedText ++ "' with '" ++ target ++ " "
    ++ operatorFor k ++ " " ++ value ++ "'."

/-! ### Concrete units used to instantiate the theorems below -/

def unit2 : Unit :=
  { pgm_name := "P2", inc_name := "I2", type := "FORM",
    start_line := 10, code := some ("ADD 1 TO A.\nADD 2 TO B.") }

def findings2 : List Finding :=
  (findAll (srcOf unit2)).map (findingOfMatch unit2)

def unit3 : Unit :=
  { pgm_name := "P3", inc_name := "I3", type := "METH",
    start_line := 1, code := some ("SUBTRACT 5 FROM X.\nDIVIDE 2 BY Y.") }

def findings3 : List Finding :=
  (findAll (srcOf unit3)).map (findingOfMatch unit3)

def unit4 : Unit :=
  { pgm_name := "P1", inc_name := "", type := "",
    start_line := 100, code := some ("ADD 1 TO X.\nSUBTRACT 2 FROM Y.") }

def unit5 : Unit :=
  { pgm_name := "P5", inc_name := "I5", type := "FUNC",
    start_line := 7, code := some ("ADD\n 1 TO X.") }

def findings5 : List Finding :=
  (findAll (srcOf unit5)).map (findingOfMatch unit5)

def unit7a : Unit :=
  { pgm_name := "P7", inc_name := "I7", type := "FORM",
    start_line := 1, code := some ("MOVE 1 TO X") }

def unit7b : Unit :=
  { pgm_name := "P7B", inc_name := "I7", type := "FORM",
    start_line := 3, code := some ("MULTIPLY 4 BY Z.") }

def unit8 : Unit :=
  { pgm_name := "P8", inc_name := "I8", type := "FORM",
    start_line := 1, code := none }

def unit10 : Unit :=
  { pgm_name := "P10", inc_name := "I10", type := "CLAS",
    start_line := 20, code := some ("DIVIDE 2 BY Q.\nMULTIPLY 3 BY R.") }

def findings10 : List Finding :=
  (findAll (srcOf unit10)).map (findingOfMatch unit10)

/-! ### Character-class lemmas -/

theorem spaceNotWord {c : Char} (h : isSpacePy c = true) : isWordPy c = false := by
  simp only [isSpacePy, Bool.or_eq_true, beq_iff_eq] at h
  rcases h with ((((h | h) | h) | h) | h) | h <;> subst h <;> decide

theorem wordNotSpace {c : Char} (h : isWordPy c = true) : isSpacePy c = false := by
  cases hs : isSpacePy c
  · rfl
  · rw [spaceNotWord hs] at h
    exact Bool.noConfusion h

theorem toLower_space {c : Char} (h : isSpacePy c = true) : c.toLower = c := by
  simp only [isSpacePy, Bool.or_eq_true, beq_iff_eq] at h
  rcases h with ((((h | h) | h) | h) | h) | h <;> subst h <;> decide

theorem eqCI_toLower {a b : Char} (h : eqCI a b = true) : a.toLower = b.toLower := by
  simpa [eqCI] using h

theorem eqCI_nonspace {a c : Char} (ha : isSpacePy a.toLower = false)
    (h : eqCI a c = true) : isSpacePy c = false := by
  cases hs : isSpacePy c
  · rfl
  · have h2 := eqCI_toLower h
    rw [toLower_space hs] at h2
    rw [h2] at ha
    exact hs.symm.trans ha

theorem eqCI_false_of_ne {a b c : Char} (h : eqCI a c = true)
    (hne : b.toLower ≠ a.toLower) : eqCI b c = false := by
  cases hb : eqCI b c
  · rfl
  · exact absurd ((eqCI_toLower hb).trans (eqCI_toLower h).symm) hne

/-! ### List scanning lemmas -/

theorem dropWhile_append_all {p : Char → Bool} {xs ys : List Char}
    (h : ∀ x ∈ xs, p x = true) :
    (xs ++ ys).dropWhile p = ys.dropWhile p := by
  induction xs with
  | nil => rfl
  | cons a l ih =>
    have ha : p a = true := h a (List.mem_cons_self a l)
    simp only [List.cons_append, List.dropWhile_cons, ha, if_true]
    exact ih (fun x hx => h x (List.mem_cons_of_mem a hx))

theorem takeWhile_append_all {p : Char → Bool} {xs ys : List Char}
    (h : ∀ x ∈ xs, p x = true) :
    (xs ++ ys).takeWhile p = xs ++ ys.takeWhile p := by
  induction xs with
  | nil => rfl
  | cons a l ih =>
    have ha : p a = true := h a (List.mem_cons_self a l)
    simp only [List.cons_append, List.takeWhile_cons, ha, if_true]
    rw [ih (fun x hx => h x (List.mem_cons_of_mem a hx))]

theorem headNot_of_all {p q : Char → Bool} (hpq : ∀ c, q c = true → p c = false)
    {v rest : List Char} (hv : v ≠ []) (hva : ∀ x ∈ v, q x = true) :
    ∀ c, (v ++ rest).head? = some c → p c = false := by
  cases v with
  | nil => exact absurd rfl hv
  | cons a l =>
    intro c hc
    simp only [List.cons_append, List.head?] at hc
    cases hc
    exact hpq a (hva a (List.mem_cons_self a l))

theorem dropWhile_of_head_not {p : Char → Bool} {l : List Char}
    (h : ∀ c, l.head? = some c → p c = false) : l.dropWhile p = l := by
  cases l with
  | nil => rfl
  | cons a t =>
    have := h a rfl
    simp [List.dropWhile_cons, this]

theorem takeWhile_of_head_not {p : Char → Bool} {l : List Char}
    (h : ∀ c, l.head? = some c → p c = false) : l.takeWhile p = [] := by
  cases l with
  | nil => rfl
  | cons a t =>
    have := h a rfl
    simp [List.takeWhile_cons, this]

/-! ### Token lemmas for the regex pieces -/

theorem matchCI_append {kw ck rest : List Char} (h : ciEqList kw ck = true) :
    matchCI kw (ck ++ rest) = some rest := by
  induction kw generalizing ck with
  | nil =>
    cases ck with
    | nil => rfl
    | cons c cs => simp [ciEqList] at h
  | cons p ps ih =>
    cases ck with
    | nil => simp [ciEqList] at h
    | cons c cs =>
      simp only [ciEqList, Bool.and_eq_true] at h
      simp only [List.cons_append, matchCI, h.1, if_true]
      exact ih h.2

theorem takeSpaces1_run {w rest : List Char} (hw : w ≠ [])
    (hwa : ∀ x ∈ w, isSpacePy x = true)
    (hr : ∀ c, rest.head? = some c → isSpacePy c = false) :
    takeSpaces1 (w ++ rest) = some rest := by
  cases w with
  | nil => exact absurd rfl hw
  | cons a l =>
    have ha : isSpacePy a = true := hwa a (List.mem_cons_self a l)
    simp only [List.cons_append, takeSpaces1, ha, if_true, Option.some.injEq]
    rw [dropWhile_append_all (fun x hx => hwa x (List.mem_cons_of_mem a hx))]
    exact dropWhile_of_head_not hr

theorem takeWord1_run {v rest : List Char} (hv : v ≠ [])
    (hva : ∀ x ∈ v, isWordPy x = true)
    (hr : ∀ c, rest.head? = some c → isWordPy c = false) :
    takeWord1 (v ++ rest) = some (v, rest) := by
  cases v with
  | nil => exact absurd rfl hv
  | cons a l =>
    have ha : isWordPy a = true := hva a (List.mem_cons_self a l)
    have hall : ∀ x ∈ l, isWordPy x = true :=
      fun x hx => hva x (List.mem_cons_of_mem a hx)
    simp only [List.cons_append, takeWord1, ha, if_true, Option.some.injEq]
    rw [takeWhile_append_all hall, dropWhile_append_all hall,
      takeWhile_of_head_not hr, dropWhile_of_head_not hr, List.append_nil]

theorem head?_append_ne {l r : List Char} (h : l ≠ []) : (l ++ r).head? = l.head? := by
  cases l with
  | nil => exact absurd rfl h
  | cons a t => rfl

theorem ciEqList_ne_nil {kw ck : List Char} (hkw : kw ≠ [])
    (h : ciEqList kw ck = true) : ck ≠ [] := by
  cases kw with
  | nil => exact absurd rfl hkw
  | cons p ps =>
    cases ck with
    | nil => simp [ciEqList] at h
    | cons c cs => exact List.cons_ne_nil c cs

theorem keyword_head_nonspace (k : Kind) {ck : List Char}
    (h : ciEqList k.keyword ck = true) :
    ∀ c, ck.head? = some c → isSpacePy c = false := by
  cases k <;>
  · cases ck with
    | nil => intro c hc; cases hc
    | cons a l =>
      intro c hc
      injection hc with hc2
      subst hc2
      simp only [Kind.keyword, ciEqList, Bool.and_eq_true] at h
      exact eqCI_nonspace (by decide) h.1

theorem midword_head_nonspace (k : Kind) {cm : List Char}
    (h : ciEqList k.midword cm = true) :
    ∀ c, cm.head? = some c → isSpacePy c = false := by
  cases k <;>
  · cases cm with
    | nil => intro c hc; cases hc
    | cons a l =>
      intro c hc
      injection hc with hc2
      subst hc2
      simp only [Kind.midword, ciEqList, Bool.and_eq_true] at h
      exact eqCI_nonspace (by decide) h.1

/-! ### The stmt alternatives on a well-formed statement -/

theorem parseBranch_complete {kw mid ck cm w1 v w2 w3 t post : List Char}
    (hck : ciEqList kw ck = true) (hcm : ciEqList mid cm = true)
    (hcmne : cm ≠ [])
    (hcmh : ∀ c, cm.head? = some c → isSpacePy c = false)
    (hw1 : w1 ≠ []) (hw1a : ∀ x ∈ w1, isSpacePy x = true)
    (hv : v ≠ []) (hva : ∀ x ∈ v, isWordPy x = true)
    (hw2 : w2 ≠ []) (hw2a : ∀ x ∈ w2, isSpacePy x = true)
    (hw3 : w3 ≠ []) (hw3a : ∀ x ∈ w3, isSpacePy x = true)
    (ht : t ≠ []) (hta : ∀ x ∈ t, isWordPy x = true) :
    parseBranch kw mid (ck ++ (w1 ++ (v ++ (w2 ++ (cm ++ (w3 ++ (t ++ '.' :: post)))))))
      = some (v, t, post) := by
  have hdot : ∀ c, ('.' :: post).head? = some c → isWordPy c = false := by
    intro c hc
    injection hc with hc2
    subst hc2
    decide
  have h1 := @matchCI_append kw ck
    (w1 ++ (v ++ (w2 ++ (cm ++ (w3 ++ (t ++ '.' :: post)))))) hck
  have h2 := @takeSpaces1_run w1 (v ++ (w2 ++ (cm ++ (w3 ++ (t ++ '.' :: post)))))
    hw1 hw1a (headNot_of_all (fun c => wordNotSpace) hv hva)
  have h3 := @takeWord1_run v (w2 ++ (cm ++ (w3 ++ (t ++ '.' :: post))))
    hv hva (headNot_of_all (fun c => spaceNotWord) hw2 hw2a)
  have h4 := @takeSpaces1_run w2 (cm ++ (w3 ++ (t ++ '.' :: post)))
    hw2 hw2a (fun c hc => hcmh c (by rwa [head?_append_ne hcmne] at hc))
  have h5 := @matchCI_append mid cm (w3 ++ (t ++ '.' :: post)) hcm
  have h6 := @takeSpaces1_run w3 (t ++ '.' :: post)
    hw3 hw3a (headNot_of_all (fun c => wordNotSpace) ht hta)
  have h7 := @takeWord1_run t ('.' :: post) ht hta hdot
  simp only [parseBranch, h1, h2, h3, h4, h5, h6, h7]

theorem parseBranch_first_fail {p : Char} {ps mid : List Char} {c : Char}
    {cs rest : List Char} (h : eqCI p c = false) :
    parseBranch (p :: ps) mid ((c :: cs) ++ rest) = none := by
  simp [parseBranch, matchCI, h]

theorem parseArith_complete (k : Kind) {ck cm w1 v w2 w3 t post : List Char}
    (hck : ciEqList k.keyword ck = true) (hcm : ciEqList k.midword cm = true)
    (hw1 : w1 ≠ []) (hw1a : ∀ x ∈ w1, isSpacePy x = true)
    (hv : v ≠ []) (hva : ∀ x ∈ v, isWordPy x = true)
    (hw2 : w2 ≠ []) (hw2a : ∀ x ∈ w2, isSpacePy x = true)
    (hw3 : w3 ≠ []) (hw3a : ∀ x ∈ w3, isSpacePy x = true)
    (ht : t ≠ []) (hta : ∀ x ∈ t, isWordPy x = true) :
    parseArith (ck ++ (w1 ++ (v ++ (w2 ++ (cm ++ (w3 ++ (t ++ '.' :: post)))))))
      = some (k, v, t, post) := by
  have hcmne : cm ≠ [] := ciEqList_ne_nil (by cases k <;> decide) hcm
  have hcmh := midword_head_nonspace k hcm
  have hmain := @parseBranch_complete k.keyword k.midword ck cm w1 v w2 w3 t post
    hck hcm hcmne hcmh hw1 hw1a hv hva hw2 hw2a hw3 hw3a ht hta
  cases k with
  | ADD =>
    simp only [parseArith, hmain]
  | SUBTRACT =>
    obtain ⟨c, cs, rfl⟩ : ∃ c cs, ck = c :: cs := by
      cases ck with
      | nil => simp [Kind.keyword, ciEqList] at hck
      | cons c cs => exact ⟨c, cs, rfl⟩
    simp only [Kind.keyword, Kind.midword] at hmain
    have hh : eqCI 'S' c = true := by
      simp only [Kind.keyword, ciEqList, Bool.and_eq_true] at hck
      exact hck.1
    have hA : eqCI 'A' c = false := eqCI_false_of_ne hh (by decide)
    simp only [parseArith, Kind.keyword, Kind.midword, parseBranch_first_fail hA, hmain]
  | MULTIPLY =>
    obtain ⟨c, cs, rfl⟩ : ∃ c cs, ck = c :: cs := by
      cases ck with
      | nil => simp [Kind.keyword, ciEqList] at hck
      | cons c cs => exact ⟨c, cs, rfl⟩
    simp only [Kind.keyword, Kind.midword] at hmain
    have hh : eqCI 'M' c = true := by
      simp only [Kind.keyword, ciEqList, Bool.and_eq_true] at hck
      exact hck.1
    have hA : eqCI 'A' c = false := eqCI_false_of_ne hh (by decide)
    have hS : eqCI 'S' c = false := eqCI_false_of_ne hh (by decide)
    simp only [parseArith, Kind.keyword, Kind.midword, parseBranch_first_fail hA,
      parseBranch_first_fail hS, hmain]
  | DIVIDE =>
    obtain ⟨c, cs, rfl⟩ : ∃ c cs, ck = c :: cs := by
      cases ck with
      | nil => simp [Kind.keyword, ciEqList] at hck
      | cons c cs => exact ⟨c, cs, rfl⟩
    simp only [Kind.keyword, Kind.midword] at hmain
    have hh : eqCI 'D' c = true := by
      simp only [Kind.keyword, ciEqList, Bool.and_eq_true] at hck
      exact hck.1
    have hA : eqCI 'A' c = false := eqCI_false_of_ne hh (by decide)
    have hS : eqCI 'S' c = false := eqCI_false_of_ne hh (by decide)
    have hM : eqCI 'M' c = false := eqCI_false_of_ne hh (by decide)
    simp only [parseArith, Kind.keyword, Kind.midword, parseBranch_first_fail hA,
      parseBranch_first_fail hS, parseBranch_first_fail hM, hmain]

/-! ### More character-class lemmas -/

theorem toLower_word {c : Char} (h : isWordPy (Char.toLower c) = true) :
    isWordPy c = true := by
  unfold Char.toLower at h
  dsimp only at h
  split at h
  · rename_i hcond
    have hup : c.isUpper = true := by
      simp only [Char.isUpper, Bool.and_eq_true, decide_eq_true_eq]
      exact ⟨hcond.1, hcond.2⟩
    simp [isWordPy, Char.isAlphanum, Char.isAlpha, hup]
  · exact h

theorem ciEqList_all_word {kw ck : List Char}
    (hkw : ∀ p ∈ kw, isWordPy (Char.toLower p) = true)
    (h : ciEqList kw ck = true) : ∀ x ∈ ck, isWordPy x = true := by
  induction kw generalizing ck with
  | nil =>
    cases ck with
    | nil => intro x hx; cases hx
    | cons c cs => simp [ciEqList] at h
  | cons p ps ih =>
    cases ck with
    | nil => simp [ciEqList] at h
    | cons c cs =>
      simp only [ciEqList, Bool.and_eq_true] at h
      intro x hx
      rcases List.mem_cons.mp hx with hx | hx
      · subst hx
        have h1 : Char.toLower p = Char.toLower x := eqCI_toLower h.1
        exact toLower_word (h1 ▸ hkw p (List.mem_cons_self p ps))
      · exact ih (fun q hq => hkw q (List.mem_cons_of_mem p hq)) h.2 x hx

theorem keyword_all_word (k : Kind) {ck : List Char}
    (h : ciEqList k.keyword ck = true) : ∀ x ∈ ck, isWordPy x = true :=
  ciEqList_all_word (by cases k <;> decide) h

theorem midword_all_word (k : Kind) {cm : List Char}
    (h : ciEqList k.midword cm = true) : ∀ x ∈ cm, isWordPy x = true :=
  ciEqList_all_word (by cases k <;> decide) h

theorem word_ne_dot {c : Char} (h : isWordPy c = true) : c ≠ '.' := by
  intro he
  subst he
  exact absurd h (by decide)

theorem space_ne_dot {c : Char} (h : isSpacePy c = true) : c ≠ '.' := by
  intro he
  subst he
  exact absurd h (by decide)

theorem ciEqList_length {a b : List Char} (h : ciEqList a b = true) :
    a.length = b.length := by
  induction a generalizing b with
  | nil => cases b with
    | nil => rfl
    | cons c cs => simp [ciEqList] at h
  | cons p ps ih =>
    cases b with
    | nil => simp [ciEqList] at h
    | cons c cs =>
      simp only [ciEqList, Bool.and_eq_true] at h
      simp [ih h.2]

theorem kind_eq_of_same_ck {k1 k2 : Kind} {ck : List Char}
    (h1 : ciEqList k1.keyword ck = true) (h2 : ciEqList k2.keyword ck = true) :
    k1 = k2 := by
  have l1 := ciEqList_length h1
  have l2 := ciEqList_length h2
  cases k1 <;> cases k2 <;> first
  | rfl
  | (exfalso; simp [Kind.keyword] at l1 l2; omega)
  | (exfalso
     cases ck with
     | nil => simp [Kind.keyword, ciEqList] at h1
     | cons c cs =>
       simp only [Kind.keyword, ciEqList, Bool.and_eq_true] at h1 h2
       exact absurd ((eqCI_toLower h1.1).trans (eqCI_toLower h2.1).symm) (by decide))

/-! ### Run alignment and first-period lemmas -/

theorem run_align {P : Char → Bool} {xs ys l1 l2 : List Char}
    (hx : ∀ c ∈ xs, P c = true) (hy : ∀ c ∈ ys, P c = true)
    (h1 : ∀ c, l1.head? = some c → P c = false)
    (h2 : ∀ c, l2.head? = some c → P c = false)
    (e : xs ++ l1 = ys ++ l2) : xs = ys ∧ l1 = l2 := by
  have tw := congrArg (List.takeWhile P) e
  rw [takeWhile_append_all hx, takeWhile_append_all hy,
    takeWhile_of_head_not h1, takeWhile_of_head_not h2,
    List.append_nil, List.append_nil] at tw
  have dw := congrArg (List.dropWhile P) e
  rw [dropWhile_append_all hx, dropWhile_append_all hy,
    dropWhile_of_head_not h1, dropWhile_of_head_not h2] at dw
  exact ⟨tw, dw⟩

theorem dot_free_append_eq {a b x y : List Char}
    (ha : ∀ c ∈ a, c ≠ '.') (hb : ∀ c ∈ b, c ≠ '.')
    (h : a ++ '.' :: x = b ++ '.' :: y) : a = b ∧ x = y := by
  induction a generalizing b with
  | nil =>
    cases b with
    | nil =>
      injection h with h1 h2
      exact ⟨rfl, h2⟩
    | cons b0 bs =>
      injection h with h1 h2
      exact absurd h1.symm (hb b0 (List.mem_cons_self b0 bs))
  | cons a0 as ih =>
    cases b with
    | nil =>
      injection h with h1 h2
      exact absurd h1 (ha a0 (List.mem_cons_self a0 as))
    | cons b0 bs =>
      injection h with h1 h2
      obtain ⟨e1, e2⟩ := ih (fun c hc => ha c (List.mem_cons_of_mem a0 hc))
        (fun c hc => hb c (List.mem_cons_of_mem b0 hc)) h2
      exact ⟨by rw [h1, e1], e2⟩

theorem exists_first_dot {l : List Char} (h : '.' ∈ l) :
    ∃ a b, l = a ++ '.' :: b ∧ ∀ c ∈ a, c ≠ '.' := by
  induction l with
  | nil => cases h
  | cons c cs ih =>
    by_cases hc : c = '.'
    · subst hc
      exact ⟨[], cs, rfl, by simp⟩
    · have hcs : '.' ∈ cs := by
        rcases List.mem_cons.mp h with h | h
        · exact absurd h.symm hc
        · exact h
      obtain ⟨a, b, hab, hfree⟩ := ih hcs
      refine ⟨c :: a, b, by rw [hab, List.cons_append], ?_⟩
      intro x hx
      rcases List.mem_cons.mp hx with hx | hx
      · subst hx; exact hc
      · exact hfree x hx

theorem mem_of_head? {l : List Char} {c : Char} (h : l.head? = some c) : c ∈ l := by
  cases l with
  | nil => cases h
  | cons a t =>
    injection h with h2
    subst h2
    exact List.mem_cons_self a t

theorem headNot_rev {P Q : Char → Bool} (hpq : ∀ c, Q c = true → P c = false)
    {w : List Char} (hwa : ∀ x ∈ w, Q x = true) :
    ∀ c, w.reverse.head? = some c → P c = false :=
  fun c hc => hpq c (hwa c (List.mem_reverse.mp (mem_of_head? hc)))

theorem headNot_rev_append {P Q : Char → Bool} (hpq : ∀ c, Q c = true → P c = false)
    {w z : List Char} (hw : w ≠ []) (hwa : ∀ x ∈ w, Q x = true) :
    ∀ c, (w.reverse ++ z).head? = some c → P c = false := by
  intro c hc
  rw [head?_append_ne (fun he => hw (by simpa using he))] at hc
  exact headNot_rev hpq hwa c hc

/-! ### Inversion of the parser: every successful parse decomposes the
input into class-constrained segments -/

theorem matchCI_inv {kw l r : List Char} (h : matchCI kw l = some r) :
    ∃ ck, l = ck ++ r ∧ ciEqList kw ck = true := by
  induction kw generalizing l with
  | nil =>
    injection h with h2
    exact ⟨[], by simp [h2], rfl⟩
  | cons p ps ih =>
    cases l with
    | nil => simp [matchCI] at h
    | cons c cs =>
      simp only [matchCI] at h
      split at h
      · rename_i hc
        obtain ⟨ck, hl, hci⟩ := ih h
        exact ⟨c :: ck, by simp [hl], by simp [ciEqList, hc, hci]⟩
      · cases h

theorem takeSpaces1_inv {l r : List Char} (h : takeSpaces1 l = some r) :
    ∃ w, l = w ++ r ∧ w ≠ [] ∧ ∀ x ∈ w, isSpacePy x = true := by
  cases l with
  | nil => simp [takeSpaces1] at h
  | cons c cs =>
    simp only [takeSpaces1] at h
    split at h
    · rename_i hc
      injection h with h2
      refine ⟨c :: cs.takeWhile isSpacePy, ?_, by simp, ?_⟩
      · rw [← h2, List.cons_append, List.takeWhile_append_dropWhile]
      · intro x hx
        rcases List.mem_cons.mp hx with hx | hx
        · subst hx; exact hc
        · exact List.mem_takeWhile_imp hx
    · cases h

theorem takeWord1_inv {l v r : List Char} (h : takeWord1 l = some (v, r)) :
    l = v ++ r ∧ v ≠ [] ∧ ∀ x ∈ v, isWordPy x = true := by
  cases l with
  | nil => simp [takeWord1] at h
  | cons c cs =>
    simp only [takeWord1] at h
    split at h
    · rename_i hc
      injection h with h2
      have hv : v = c :: cs.takeWhile isWordPy := (congrArg Prod.fst h2).symm
      have hr : r = cs.dropWhile isWordPy := (congrArg Prod.snd h2).symm
      subst hv
      subst hr
      refine ⟨by rw [List.cons_append, List.takeWhile_append_dropWhile], by simp, ?_⟩
      intro x hx
      rcases List.mem_cons.mp hx with hx | hx
      · subst hx; exact hc
      · exact List.mem_takeWhile_imp hx
    · cases h

theorem parseBranch_inv {kw mid l v t r : List Char}
    (h : parseBranch kw mid l = some (v, t, r)) :
    ∃ ck w1 w2 cm w3,
      l = ck ++ (w1 ++ (v ++ (w2 ++ (cm ++ (w3 ++ (t ++ '.' :: r))))))
        ∧ ciEqList kw ck = true ∧ ciEqList mid cm = true
        ∧ w1 ≠ [] ∧ (∀ x ∈ w1, isSpacePy x = true)
        ∧ v ≠ [] ∧ (∀ x ∈ v, isWordPy x = true)
        ∧ w2 ≠ [] ∧ (∀ x ∈ w2, isSpacePy x = true)
        ∧ w3 ≠ [] ∧ (∀ x ∈ w3, isSpacePy x = true)
        ∧ t ≠ [] ∧ (∀ x ∈ t, isWordPy x = true) := by
  unfold parseBranch at h
  split at h
  · exact Option.noConfusion h
  rename_i r1 heq1
  split at h
  · exact Option.noConfusion h
  rename_i r2 heq2
  split at h
  · exact Option.noConfusion h
  rename_i v1 r3 heq3
  split at h
  · exact Option.noConfusion h
  rename_i r4 heq4
  split at h
  · exact Option.noConfusion h
  rename_i r5 heq5
  split at h
  · exact Option.noConfusion h
  rename_i r6 heq6
  split at h
  · exact Option.noConfusion h
  rename_i t1 r7 heq7
  split at h
  case _ =>
    rename_i heq8 r8
    injection h with hp
    have hv : v1 = v := congrArg (fun q => q.1) hp
    have ht : t1 = t := congrArg (fun q => q.2.1) hp
    have hr : r8 = r := congrArg (fun q => q.2.2) hp
    subst hv
    subst ht
    subst hr
    obtain ⟨ck, hl1, hcik⟩ := matchCI_inv heq1
    obtain ⟨w1, hr1, hw1ne, hw1a⟩ := takeSpaces1_inv heq2
    obtain ⟨hr2, hvne, hva⟩ := takeWord1_inv heq3
    obtain ⟨w2, hr3, hw2ne, hw2a⟩ := takeSpaces1_inv heq4
    obtain ⟨cm, hr4, hcim⟩ := matchCI_inv heq5
    obtain ⟨w3, hr5, hw3ne, hw3a⟩ := takeSpaces1_inv heq6
    obtain ⟨hr6, htne, hta⟩ := takeWord1_inv heq7
    refine ⟨ck, w1, w2, cm, w3, ?_, hcik, hcim, hw1ne, hw1a, hvne, hva,
      hw2ne, hw2a, hw3ne, hw3a, htne, hta⟩
    rw [hl1, hr1, hr2, hr3, hr4, hr5, hr6]
  case _ =>
    exact Option.noConfusion h

theorem parseArith_inv {l : List Char} {k : Kind} {v t r : List Char}
    (h : parseArith l = some (k, v, t, r)) :
    ∃ ck w1 w2 cm w3,
      l = ck ++ (w1 ++ (v ++ (w2 ++ (cm ++ (w3 ++ (t ++ '.' :: r))))))
        ∧ ciEqList k.keyword ck = true ∧ ciEqList k.midword cm = true
        ∧ w1 ≠ [] ∧ (∀ x ∈ w1, isSpacePy x = true)
        ∧ v ≠ [] ∧ (∀ x ∈ v, isWordPy x = true)
        ∧ w2 ≠ [] ∧ (∀ x ∈ w2, isSpacePy x = true)
        ∧ w3 ≠ [] ∧ (∀ x ∈ w3, isSpacePy x = true)
        ∧ t ≠ [] ∧ (∀ x ∈ t, isWordPy x = true) := by
  unfold parseArith at h
  split at h
  · rename_i v1 t1 r1 heq
    injection h with hp
    have hk : Kind.ADD = k := congrArg (fun q => q.1) hp
    have hv : v1 = v := congrArg (fun q => q.2.1) hp
    have ht : t1 = t := congrArg (fun q => q.2.2.1) hp
    have hr : r1 = r := congrArg (fun q => q.2.2.2) hp
    subst hk; subst hv; subst ht; subst hr
    exact parseBranch_inv heq
  split at h
  · rename_i v1 t1 r1 heq
    injection h with hp
    have hk : Kind.SUBTRACT = k := congrArg (fun q => q.1) hp
    have hv : v1 = v := congrArg (fun q => q.2.1) hp
    have ht : t1 = t := congrArg (fun q => q.2.2.1) hp
    have hr : r1 = r := congrArg (fun q => q.2.2.2) hp
    subst hk; subst hv; subst ht; subst hr
    exact parseBranch_inv heq
  split at h
  · rename_i v1 t1 r1 heq
    injection h with hp
    have hk : Kind.MULTIPLY = k := congrArg (fun q => q.1) hp
    have hv : v1 = v := congrArg (fun q => q.2.1) hp
    have ht : t1 = t := congrArg (fun q => q.2.2.1) hp
    have hr : r1 = r := congrArg (fun q => q.2.2.2) hp
    subst hk; subst hv; subst ht; subst hr
    exact parseBranch_inv heq
  split at h
  · rename_i v1 t1 r1 heq
    injection h with hp
    have hk : Kind.DIVIDE = k := congrArg (fun q => q.1) hp
    have hv : v1 = v := congrArg (fun q => q.2.1) hp
    have ht : t1 = t := congrArg (fun q => q.2.2.1) hp
    have hr : r1 = r := congrArg (fun q => q.2.2.2) hp
    subst hk; subst hv; subst ht; subst hr
    exact parseBranch_inv heq
  · exact Option.noConfusion h

/-! ### matchAt and the scan loop -/

theorem matchAt_of_parse {src : List Char}
    (hhead : ∀ c, src.head? = some c → isSpacePy c = false)
    {k : Kind} {v t r : List Char} (hp : parseArith src = some (k, v, t, r)) :
    matchAt src 0 = some { kind := k, value := v, target := t, mstart := 0,
                           mend := src.length - r.length,
                           stmtGroup := src.take (src.length - r.length - 1) } := by
  have hbody : src.dropWhile isSpacePy = src := dropWhile_of_head_not hhead
  simp only [matchAt, isLineStart, beq_self_eq_true, Bool.true_or, if_true,
    List.drop_zero, hbody, hp, Nat.sub_self, Nat.add_zero, Nat.zero_add]

theorem matchAt_mstart {src : List Char} {i : Nat} {m : RawMatch}
    (h : matchAt src i = some m) : m.mstart = i := by
  unfold matchAt at h
  split at h
  · dsimp only at h
    split at h
    · injection h with h2
      subst h2
      rfl
    · cases h
  · cases h

theorem scanAux_mstart_ge (src : List Char) :
    ∀ fuel p m, m ∈ scanAux src fuel p → p ≤ m.mstart := by
  intro fuel
  induction fuel with
  | zero =>
    intro p m hm
    simp [scanAux] at hm
  | succ f ih =>
    intro p m hm
    simp only [scanAux] at hm
    split at hm
    · simp at hm
    · cases hma : matchAt src p with
      | some m0 =>
        rw [hma] at hm
        rcases List.mem_cons.mp hm with h | h
        · subst h
          exact le_of_eq (matchAt_mstart hma).symm
        · exact le_trans (le_trans (Nat.le_succ p) (le_max_right m0.mend (p + 1)))
            (ih _ _ h)
      | none =>
        rw [hma] at hm
        exact le_trans (Nat.le_succ p) (ih _ _ hm)

theorem findAll_of_matchAt_zero {src : List Char} {m : RawMatch}
    (h0 : matchAt src 0 = some m) :
    findAll src = m :: scanAux src src.length (max m.mend 1) := by
  unfold findAll
  simp only [scanAux, Nat.not_lt_zero, if_false, h0, Nat.zero_add]

/-- The statement together with any following text, as scanned from the
anchor position: the position right after a newline-terminated prefix
is a line start. -/
theorem isLineStart_after_newline {pre rest : List Char}
    (hpre : pre = [] ∨ ∃ q, pre = q ++ ['\n']) :
    isLineStart (pre ++ rest) pre.length = true := by
  rcases hpre with h | ⟨q, h⟩
  · subst h
    rfl
  · subst h
    have hre : (q ++ ['\n']) ++ rest = q ++ '\n' :: rest := by simp
    have hlen : (q ++ ['\n']).length - 1 = q.length := by simp
    have hget : ((q ++ ['\n']) ++ rest).get? ((q ++ ['\n']).length - 1) = some '\n' := by
      rw [hre, hlen, List.get?_append_right (Nat.le_refl q.length)]
      simp
    simp only [isLineStart, hget]
    simp

theorem matchAt_at_linestart (k : Kind) {pre w0 ck cm w1 v w2 w3 t post : List Char}
    (hpre : pre = [] ∨ ∃ q, pre = q ++ ['\n'])
    (hw0 : ∀ x ∈ w0, isSpacePy x = true)
    (hck : ciEqList k.keyword ck = true) (hcm : ciEqList k.midword cm = true)
    (hw1 : w1 ≠ []) (hw1a : ∀ x ∈ w1, isSpacePy x = true)
    (hv : v ≠ []) (hva : ∀ x ∈ v, isWordPy x = true)
    (hw2 : w2 ≠ []) (hw2a : ∀ x ∈ w2, isSpacePy x = true)
    (hw3 : w3 ≠ []) (hw3a : ∀ x ∈ w3, isSpacePy x = true)
    (ht : t ≠ []) (hta : ∀ x ∈ t, isWordPy x = true) :
    matchAt (pre ++ (w0 ++ (ck ++ (w1 ++ (v ++ (w2 ++ (cm ++ (w3 ++ (t ++ '.' :: post)))))))))
        pre.length
      = some { kind := k, value := v, target := t, mstart := pre.length,
               mend := pre.length + w0.length + ck.length + w1.length + v.length
                 + w2.length + cm.length + w3.length + t.length + 1,
               stmtGroup := ck ++ (w1 ++ (v ++ (w2 ++ (cm ++ (w3 ++ t))))) } := by
  have hckne : ck ≠ [] := ciEqList_ne_nil (by cases k <;> decide) hck
  have hls := @isLineStart_after_newline pre
    (w0 ++ (ck ++ (w1 ++ (v ++ (w2 ++ (cm ++ (w3 ++ (t ++ '.' :: post)))))))) hpre
  have hdrop : (pre ++ (w0 ++ (ck ++ (w1 ++ (v ++ (w2 ++ (cm ++ (w3 ++ (t ++ '.' :: post))))))))).drop
        pre.length
      = w0 ++ (ck ++ (w1 ++ (v ++ (w2 ++ (cm ++ (w3 ++ (t ++ '.' :: post))))))) :=
    List.drop_left pre _
  have hhead : ∀ c, (ck ++ (w1 ++ (v ++ (w2 ++ (cm ++ (w3 ++ (t ++ '.' :: post))))))).head?
      = some c → isSpacePy c = false := by
    intro c hc
    rw [head?_append_ne hckne] at hc
    exact keyword_head_nonspace k hck c hc
  have hbody : ((pre ++ (w0 ++ (ck ++ (w1 ++ (v ++ (w2 ++ (cm ++ (w3 ++ (t ++ '.' :: post))))))))).drop
        pre.length).dropWhile isSpacePy
      = ck ++ (w1 ++ (v ++ (w2 ++ (cm ++ (w3 ++ (t ++ '.' :: post)))))) := by
    rw [hdrop, dropWhile_append_all hw0, dropWhile_of_head_not hhead]
  have hp : parseArith (ck ++ (w1 ++ (v ++ (w2 ++ (cm ++ (w3 ++ (t ++ '.' :: post)))))))
      = some (k, v, t, post) :=
    parseArith_complete k hck hcm hw1 hw1a hv hva hw2 hw2a hw3 hw3a ht hta
  have hbody2 : (w0 ++ (ck ++ (w1 ++ (v ++ (w2 ++ (cm ++ (w3 ++ (t ++ '.' :: post)))))))).dropWhile
        isSpacePy
      = ck ++ (w1 ++ (v ++ (w2 ++ (cm ++ (w3 ++ (t ++ '.' :: post)))))) := by
    rw [dropWhile_append_all hw0]
    exact dropWhile_of_head_not hhead
  unfold matchAt
  rw [hls, if_pos rfl]
  dsimp only
  rw [hdrop, hbody2, hp]
  dsimp only
  simp only [Option.some.injEq, RawMatch.mk.injEq]
  refine ⟨trivial, trivial, trivial, trivial, ?_, ?_⟩
  · simp only [List.length_append, List.length_cons]
    omega
  · have hre : ck ++ (w1 ++ (v ++ (w2 ++ (cm ++ (w3 ++ (t ++ '.' :: post))))))
        = (ck ++ (w1 ++ (v ++ (w2 ++ (cm ++ (w3 ++ t)))))) ++ '.' :: post := by
      simp [List.append_assoc]
    rw [hre]
    refine List.take_left' ?_
    simp only [List.length_append, List.length_cons]
    omega

/-- Classification of a match attempt at or before a line-start
anchored statement: any match starting at a position up to the
statement's line either ends inside the prefix, or it is exactly the
statement's own match (the leading `\s*` may absorb preceding
whitespace, but the captured groups and the end of the span are forced:
the segments of the parsed statement align with the statement's own
segments because maximal runs of the two disjoint classes are unique,
and the terminating period is the first period at or after the attempt
position). -/
theorem matchAt_classify (k : Kind) {pre w0 ck cm w1 v w2 w3 t post : List Char}
    (hpre : pre = [] ∨ ∃ q, pre = q ++ ['\n'])
    (hw0 : ∀ x ∈ w0, isSpacePy x = true)
    (hck : ciEqList k.keyword ck = true) (hcm : ciEqList k.midword cm = true)
    (hw1 : w1 ≠ []) (hw1a : ∀ x ∈ w1, isSpacePy x = true)
    (hv : v ≠ []) (hva : ∀ x ∈ v, isWordPy x = true)
    (hw2 : w2 ≠ []) (hw2a : ∀ x ∈ w2, isSpacePy x = true)
    (hw3 : w3 ≠ []) (hw3a : ∀ x ∈ w3, isSpacePy x = true)
    (ht : t ≠ []) (hta : ∀ x ∈ t, isWordPy x = true)
    {i : Nat} (hi : i ≤ pre.length) {m : RawMatch}
    (hm : matchAt (pre ++ (w0 ++ (ck ++ (w1 ++ (v ++ (w2 ++ (cm ++ (w3 ++ (t ++ '.' :: post))))))))) i
      = some m) :
    m.mend ≤ pre.length
      ∨ (m.kind = k ∧ m.value = v ∧ m.target = t
          ∧ m.stmtGroup = ck ++ (w1 ++ (v ++ (w2 ++ (cm ++ (w3 ++ t)))))
          ∧ m.mend = pre.length + w0.length + ck.length + w1.length + v.length
              + w2.length + cm.length + w3.length + t.length + 1) := by
  have hckne : ck ≠ [] := ciEqList_ne_nil (by cases k <;> decide) hck
  have hcmne : cm ≠ [] := ciEqList_ne_nil (by cases k <;> decide) hcm
  have hckw := keyword_all_word k hck
  have hcmw := midword_all_word k hcm
  unfold matchAt at hm
  split at hm
  case _ =>
    dsimp only at hm
    split at hm
    case _ k1 v1 t1 r1 hp =>
      injection hm with hrec
      subst hrec
      dsimp only
      obtain ⟨ck', w1', w2', cm', w3', hbody, hcik', hcim', hw1'ne, hw1'a, hv'ne, hv'a,
        hw2'ne, hw2'a, hw3'ne, hw3'a, ht'ne, ht'a⟩ := parseArith_inv hp
      have hck'ne : ck' ≠ [] := ciEqList_ne_nil (by cases k1 <;> decide) hcik'
      have hcm'ne : cm' ≠ [] := ciEqList_ne_nil (by cases k1 <;> decide) hcim'
      have hck'w := keyword_all_word k1 hcik'
      have hcm'w := midword_all_word k1 hcim'
      have hws'a : ∀ x ∈ (List.drop i (pre ++ (w0 ++ (ck ++ (w1 ++ (v ++ (w2 ++ (cm ++ (w3
          ++ (t ++ '.' :: post)))))))))).takeWhile isSpacePy, isSpacePy x = true :=
        fun x hx => List.mem_takeWhile_imp hx
      have hdropsrc : List.drop i (pre ++ (w0 ++ (ck ++ (w1 ++ (v ++ (w2 ++ (cm ++ (w3
          ++ (t ++ '.' :: post)))))))))
          = (pre.drop i) ++ (w0 ++ (ck ++ (w1 ++ (v ++ (w2 ++ (cm ++ (w3
            ++ (t ++ '.' :: post)))))))) :=
        List.drop_append_of_le_length hi
      have E1 : (List.drop i (pre ++ (w0 ++ (ck ++ (w1 ++ (v ++ (w2 ++ (cm ++ (w3
            ++ (t ++ '.' :: post)))))))))).takeWhile isSpacePy
            ++ (ck' ++ (w1' ++ (v1 ++ (w2' ++ (cm' ++ (w3' ++ (t1 ++ '.' :: r1)))))))
          = (pre.drop i) ++ (w0 ++ (ck ++ (w1 ++ (v ++ (w2 ++ (cm ++ (w3
            ++ (t ++ '.' :: post)))))))) := by
        rw [← hbody, List.takeWhile_append_dropWhile]
        exact hdropsrc
      have hfreeL : ∀ c ∈ (List.drop i (pre ++ (w0 ++ (ck ++ (w1 ++ (v ++ (w2 ++ (cm ++ (w3
          ++ (t ++ '.' :: post)))))))))).takeWhile isSpacePy
          ++ (ck' ++ (w1' ++ (v1 ++ (w2' ++ (cm' ++ (w3' ++ t1)))))), c ≠ '.' := by
        intro c hc
        simp only [List.mem_append] at hc
        rcases hc with hc | hc | hc | hc | hc | hc | hc | hc
        · exact space_ne_dot (hws'a c hc)
        · exact word_ne_dot (hck'w c hc)
        · exact space_ne_dot (hw1'a c hc)
        · exact word_ne_dot (hv'a c hc)
        · exact space_ne_dot (hw2'a c hc)
        · exact word_ne_dot (hcm'w c hc)
        · exact space_ne_dot (hw3'a c hc)
        · exact word_ne_dot (ht'a c hc)
      have hlen_drop : (List.drop i (pre ++ (w0 ++ (ck ++ (w1 ++ (v ++ (w2 ++ (cm ++ (w3
          ++ (t ++ '.' :: post)))))))))).length
          = (pre ++ (w0 ++ (ck ++ (w1 ++ (v ++ (w2 ++ (cm ++ (w3
            ++ (t ++ '.' :: post))))))))).length - i := List.length_drop i _
      have hlen_body := congrArg List.length hbody
      by_cases hdot : '.' ∈ pre.drop i
      · left
        obtain ⟨a1, b1, hQ, hQ1free⟩ := exists_first_dot hdot
        have E2 : ((List.drop i (pre ++ (w0 ++ (ck ++ (w1 ++ (v ++ (w2 ++ (cm ++ (w3
              ++ (t ++ '.' :: post)))))))))).takeWhile isSpacePy
              ++ (ck' ++ (w1' ++ (v1 ++ (w2' ++ (cm' ++ (w3' ++ t1))))))) ++ '.' :: r1
            = a1 ++ '.' :: (b1 ++ (w0 ++ (ck ++ (w1 ++ (v ++ (w2 ++ (cm ++ (w3
              ++ (t ++ '.' :: post))))))))) := by
          rw [hQ] at E1
          simp only [List.append_assoc, List.cons_append] at E1 ⊢
          exact E1
        obtain ⟨hQeq, hrest⟩ := dot_free_append_eq hfreeL hQ1free E2
        have e3 : ((List.drop i (pre ++ (w0 ++ (ck ++ (w1 ++ (v ++ (w2 ++ (cm ++ (w3
            ++ (t ++ '.' :: post)))))))))).takeWhile isSpacePy).length
            + (ck'.length + w1'.length + v1.length + w2'.length + cm'.length + w3'.length
              + t1.length) = a1.length := by
          have h3 := congrArg List.length hQeq
          simp only [List.length_append] at h3
          omega
        have e2 : (List.dropWhile isSpacePy
            (List.drop i (pre ++ (w0 ++ (ck ++ (w1 ++ (v ++ (w2 ++ (cm ++ (w3
              ++ (t ++ '.' :: post))))))))))).length
            = ck'.length + w1'.length + v1.length + w2'.length + cm'.length + w3'.length
              + t1.length + 1 + r1.length := by
          rw [hlen_body]
          simp only [List.length_append, List.length_cons]
          omega
        have e4 : ((List.drop i (pre ++ (w0 ++ (ck ++ (w1 ++ (v ++ (w2 ++ (cm ++ (w3
            ++ (t ++ '.' :: post)))))))))).takeWhile isSpacePy).length
            + (List.dropWhile isSpacePy
              (List.drop i (pre ++ (w0 ++ (ck ++ (w1 ++ (v ++ (w2 ++ (cm ++ (w3
                ++ (t ++ '.' :: post))))))))))).length
            = (List.drop i (pre ++ (w0 ++ (ck ++ (w1 ++ (v ++ (w2 ++ (cm ++ (w3
              ++ (t ++ '.' :: post)))))))))).length := by
          rw [← List.length_append, List.takeWhile_append_dropWhile]
        have e5 : (pre.drop i).length = a1.length + 1 + b1.length := by
          have h5 := congrArg List.length hQ
          simp only [List.length_append, List.length_cons] at h5
          omega
        have e6 : (pre.drop i).length = pre.length - i := List.length_drop i pre
        omega
      · right
        have hQfree : ∀ c ∈ pre.drop i, c ≠ '.' := fun c hc he => hdot (he ▸ hc)
        have E2 : ((List.drop i (pre ++ (w0 ++ (ck ++ (w1 ++ (v ++ (w2 ++ (cm ++ (w3
              ++ (t ++ '.' :: post)))))))))).takeWhile isSpacePy
              ++ (ck' ++ (w1' ++ (v1 ++ (w2' ++ (cm' ++ (w3' ++ t1))))))) ++ '.' :: r1
            = ((pre.drop i) ++ (w0 ++ (ck ++ (w1 ++ (v ++ (w2 ++ (cm ++ (w3 ++ t))))))))
              ++ '.' :: post := by
          simp only [List.append_assoc, List.cons_append] at E1 ⊢
          exact E1
        have hfreeR : ∀ c ∈ (pre.drop i) ++ (w0 ++ (ck ++ (w1 ++ (v ++ (w2 ++ (cm
            ++ (w3 ++ t))))))), c ≠ '.' := by
          intro c hc
          simp only [List.mem_append] at hc
          rcases hc with hc | hc | hc | hc | hc | hc | hc | hc | hc
          · exact hQfree c hc
          · exact space_ne_dot (hw0 c hc)
          · exact word_ne_dot (hckw c hc)
          · exact space_ne_dot (hw1a c hc)
          · exact word_ne_dot (hva c hc)
          · exact space_ne_dot (hw2a c hc)
          · exact word_ne_dot (hcmw c hc)
          · exact space_ne_dot (hw3a c hc)
          · exact word_ne_dot (hta c hc)
        obtain ⟨hpref, hrpost⟩ := dot_free_append_eq hfreeL hfreeR E2
        have E3 := congrArg List.reverse hpref
        simp only [List.reverse_append, List.append_assoc] at E3
        obtain ⟨et, E4⟩ := run_align (P := isWordPy)
          (fun c hc => ht'a c (List.mem_reverse.mp hc))
          (fun c hc => hta c (List.mem_reverse.mp hc))
          (headNot_rev_append (fun c hc => spaceNotWord hc) hw3'ne hw3'a)
          (headNot_rev_append (fun c hc => spaceNotWord hc) hw3 hw3a) E3
        have et2 : t1 = t := List.reverse_injective et
        obtain ⟨ew3, E5⟩ := run_align (P := isSpacePy)
          (fun c hc => hw3'a c (List.mem_reverse.mp hc))
          (fun c hc => hw3a c (List.mem_reverse.mp hc))
          (headNot_rev_append (fun c hc => wordNotSpace hc) hcm'ne hcm'w)
          (headNot_rev_append (fun c hc => wordNotSpace hc) hcmne hcmw) E4
        have ew32 : w3' = w3 := List.reverse_injective ew3
        obtain ⟨ecm, E6⟩ := run_align (P := isWordPy)
          (fun c hc => hcm'w c (List.mem_reverse.mp hc))
          (fun c hc => hcmw c (List.mem_reverse.mp hc))
          (headNot_rev_append (fun c hc => spaceNotWord hc) hw2'ne hw2'a)
          (headNot_rev_append (fun c hc => spaceNotWord hc) hw2 hw2a) E5
        have ecm2 : cm' = cm := List.reverse_injective ecm
        obtain ⟨ev2, E7⟩ := run_align (P := isSpacePy)
          (fun c hc => hw2'a c (List.mem_reverse.mp hc))
          (fun c hc => hw2a c (List.mem_reverse.mp hc))
          (headNot_rev_append (fun c hc => wordNotSpace hc) hv'ne hv'a)
          (headNot_rev_append (fun c hc => wordNotSpace hc) hv hva) E6
        have ew22 : w2' = w2 := List.reverse_injective ev2
        obtain ⟨evv, E8⟩ := run_align (P := isWordPy)
          (fun c hc => hv'a c (List.mem_reverse.mp hc))
          (fun c hc => hva c (List.mem_reverse.mp hc))
          (headNot_rev_append (fun c hc => spaceNotWord hc) hw1'ne hw1'a)
          (headNot_rev_append (fun c hc => spaceNotWord hc) hw1 hw1a) E7
        have ev2b : v1 = v := List.reverse_injective evv
        obtain ⟨ew1, E9⟩ := run_align (P := isSpacePy)
          (fun c hc => hw1'a c (List.mem_reverse.mp hc))
          (fun c hc => hw1a c (List.mem_reverse.mp hc))
          (headNot_rev_append (fun c hc => wordNotSpace hc) hck'ne hck'w)
          (headNot_rev_append (fun c hc => wordNotSpace hc) hckne hckw) E8
        have ew12 : w1' = w1 := List.reverse_injective ew1
        have hl2w : ∀ c, (w0.reverse ++ (pre.drop i).reverse).head? = some c
            → isWordPy c = false := by
          cases hw0e : w0 with
          | nil =>
            simp only [List.reverse_nil, List.nil_append]
            intro c hc
            rcases hpre with hp0 | ⟨q, hq⟩
            · subst hp0
              simp at hc
            · subst hq
              by_cases hiq : i ≤ q.length
              · rw [List.drop_append_of_le_length hiq] at hc
                have hrev : ((q.drop i) ++ ['\n']).reverse = '\n' :: (q.drop i).reverse := by
                  simp
                rw [hrev] at hc
                injection hc with hc2
                subst hc2
                decide
              · have hnil : (q ++ ['\n']).drop i = [] := by
                  refine List.drop_eq_nil_of_le ?_
                  simp only [List.length_append, List.length_cons, List.length_nil]
                  omega
                rw [hnil] at hc
                simp at hc
          | cons a w0t =>
            exact headNot_rev_append (fun c hc => spaceNotWord hc) (List.cons_ne_nil a w0t)
              (fun x hx => hw0 x (hw0e.symm ▸ hx))
        obtain ⟨eck, _⟩ := run_align (P := isWordPy)
          (fun c hc => hck'w c (List.mem_reverse.mp hc))
          (fun c hc => hckw c (List.mem_reverse.mp hc))
          (headNot_rev (fun c hc => spaceNotWord hc) hws'a)
          hl2w E9
        have eck2 : ck' = ck := List.reverse_injective eck
        subst et2
        subst ew32
        subst ecm2
        subst ew22
        subst ev2b
        subst ew12
        subst eck2
        subst hrpost
        have hk1 : k1 = k := kind_eq_of_same_ck hcik' hck
        subst hk1
        refine ⟨rfl, rfl, rfl, ?_, ?_⟩
        · rw [hbody]
          have hre : ck' ++ (w1' ++ (v1 ++ (w2' ++ (cm' ++ (w3' ++ (t1 ++ '.' :: r1))))))
              = (ck' ++ (w1' ++ (v1 ++ (w2' ++ (cm' ++ (w3' ++ t1)))))) ++ '.' :: r1 := by
            simp [List.append_assoc]
          rw [hre]
          refine List.take_left' ?_
          simp only [List.length_append, List.length_cons] at hlen_body ⊢
          omega
        · have e2 : (List.dropWhile isSpacePy
              (List.drop i (pre ++ (w0 ++ (ck' ++ (w1' ++ (v1 ++ (w2' ++ (cm' ++ (w3'
                ++ (t1 ++ '.' :: r1))))))))))).length
              = ck'.length + w1'.length + v1.length + w2'.length + cm'.length + w3'.length
                + t1.length + 1 + r1.length := by
            rw [hlen_body]
            simp only [List.length_append, List.length_cons]
            omega
          have e4 : ((List.drop i (pre ++ (w0 ++ (ck' ++ (w1' ++ (v1 ++ (w2' ++ (cm' ++ (w3'
              ++ (t1 ++ '.' :: r1)))))))))).takeWhile isSpacePy).length
              + (List.dropWhile isSpacePy
                (List.drop i (pre ++ (w0 ++ (ck' ++ (w1' ++ (v1 ++ (w2' ++ (cm' ++ (w3'
                  ++ (t1 ++ '.' :: r1))))))))))).length
              = (List.drop i (pre ++ (w0 ++ (ck' ++ (w1' ++ (v1 ++ (w2' ++ (cm' ++ (w3'
                ++ (t1 ++ '.' :: r1)))))))))).length := by
            rw [← List.length_append, List.takeWhile_append_dropWhile]
          have e3 : ((List.drop i (pre ++ (w0 ++ (ck' ++ (w1' ++ (v1 ++ (w2' ++ (cm' ++ (w3'
              ++ (t1 ++ '.' :: r1)))))))))).takeWhile isSpacePy).length
              + (ck'.length + w1'.length + v1.length + w2'.length + cm'.length + w3'.length
                + t1.length)
              = (pre.drop i).length + w0.length
                + (ck'.length + w1'.length + v1.length + w2'.length + cm'.length + w3'.length
                  + t1.length) := by
            have h3 := congrArg List.length hpref
            simp only [List.length_append] at h3
            omega
          have e6 : (pre.drop i).length = pre.length - i := List.length_drop i pre
          have e1 : (List.drop i (pre ++ (w0 ++ (ck' ++ (w1' ++ (v1 ++ (w2' ++ (cm' ++ (w3'
              ++ (t1 ++ '.' :: r1)))))))))).length
              = (pre ++ (w0 ++ (ck' ++ (w1' ++ (v1 ++ (w2' ++ (cm' ++ (w3'
                ++ (t1 ++ '.' :: r1))))))))).length - i := List.length_drop i _
          have e1b : (pre ++ (w0 ++ (ck' ++ (w1' ++ (v1 ++ (w2' ++ (cm' ++ (w3'
              ++ (t1 ++ '.' :: r1))))))))).length
              = pre.length + w0.length + ck'.length + w1'.length + v1.length + w2'.length
                + cm'.length + w3'.length + t1.length + 1 + r1.length := by
            simp only [List.length_append, List.length_cons]
            omega
          omega
    case _ =>
      exact Option.noConfusion hm
  case _ =>
    exact Option.noConfusion hm

/-! ### Claim C1 -/

/-- C1, counterexample: the claim says a well-formed statement occurring
anywhere in the text is detected, but ARITH_RE anchors every match with
a MULTILINE `^\s*`: the statement `ADD 1 TO X.` is detected on its own
but not when it is preceded by non-whitespace text on the same line. -/
theorem midline_statement_not_detected :
    findAll (("X ADD 1 TO X.").toList) = []
      ∧ (findAll (("ADD 1 TO X.").toList)).length = 1 := by
  exact ⟨by decide, by decide⟩

/-- The scan, entered at or before the anchor line of a well-formed
statement, produces exactly one match overlapping the statement: its
output splits into matches that end inside the prefix, the statement
match itself, and matches that start after the statement. -/
theorem scanAux_decomp (k : Kind) {pre w0 ck cm w1 v w2 w3 t post : List Char}
    (hpre : pre = [] ∨ ∃ q, pre = q ++ ['\n'])
    (hw0 : ∀ x ∈ w0, isSpacePy x = true)
    (hck : ciEqList k.keyword ck = true) (hcm : ciEqList k.midword cm = true)
    (hw1 : w1 ≠ []) (hw1a : ∀ x ∈ w1, isSpacePy x = true)
    (hv : v ≠ []) (hva : ∀ x ∈ v, isWordPy x = true)
    (hw2 : w2 ≠ []) (hw2a : ∀ x ∈ w2, isSpacePy x = true)
    (hw3 : w3 ≠ []) (hw3a : ∀ x ∈ w3, isSpacePy x = true)
    (ht : t ≠ []) (hta : ∀ x ∈ t, isWordPy x = true) :
    ∀ fuel p, p ≤ pre.length
      → (pre ++ (w0 ++ (ck ++ (w1 ++ (v ++ (w2 ++ (cm ++ (w3
          ++ (t ++ '.' :: post))))))))).length + 1 ≤ fuel + p
      → ∃ ms1 m ms2,
          scanAux (pre ++ (w0 ++ (ck ++ (w1 ++ (v ++ (w2 ++ (cm ++ (w3
              ++ (t ++ '.' :: post))))))))) fuel p
            = ms1 ++ m :: ms2
          ∧ m.kind = k ∧ m.value = v ∧ m.target = t
          ∧ m.stmtGroup = ck ++ (w1 ++ (v ++ (w2 ++ (cm ++ (w3 ++ t)))))
          ∧ m.mstart ≤ pre.length
          ∧ m.mend = pre.length + w0.length + ck.length + w1.length + v.length
              + w2.length + cm.length + w3.length + t.length + 1
          ∧ (∀ x ∈ ms1, x.mend ≤ pre.length)
          ∧ (∀ x ∈ ms2, pre.length + w0.length + ck.length + w1.length + v.length
              + w2.length + cm.length + w3.length + t.length + 1 ≤ x.mstart) := by
  intro fuel
  induction fuel with
  | zero =>
    intro p hp hfuel
    exfalso
    simp only [List.length_append] at hfuel
    omega
  | succ f ih =>
    intro p hp hfuel
    have hple : ¬ ((pre ++ (w0 ++ (ck ++ (w1 ++ (v ++ (w2 ++ (cm ++ (w3
        ++ (t ++ '.' :: post))))))))).length < p) := by
      simp only [List.length_append]
      omega
    have hstep : scanAux (pre ++ (w0 ++ (ck ++ (w1 ++ (v ++ (w2 ++ (cm ++ (w3
          ++ (t ++ '.' :: post))))))))) (f + 1) p
        = (match matchAt (pre ++ (w0 ++ (ck ++ (w1 ++ (v ++ (w2 ++ (cm ++ (w3
              ++ (t ++ '.' :: post))))))))) p with
          | some m0 => m0 :: scanAux (pre ++ (w0 ++ (ck ++ (w1 ++ (v ++ (w2 ++ (cm ++ (w3
              ++ (t ++ '.' :: post))))))))) f (max m0.mend (p + 1))
          | none => scanAux (pre ++ (w0 ++ (ck ++ (w1 ++ (v ++ (w2 ++ (cm ++ (w3
              ++ (t ++ '.' :: post))))))))) f (p + 1)) := by
      simp only [scanAux]
      rw [if_neg hple]
    cases hma : matchAt (pre ++ (w0 ++ (ck ++ (w1 ++ (v ++ (w2 ++ (cm ++ (w3
        ++ (t ++ '.' :: post))))))))) p with
    | none =>
      have hplt : p < pre.length := by
        rcases Nat.lt_or_ge p pre.length with h | h
        · exact h
        · exfalso
          have hpe : p = pre.length := le_antisymm hp h
          rw [hpe, matchAt_at_linestart k hpre hw0 hck hcm hw1 hw1a hv hva hw2 hw2a
            hw3 hw3a ht hta] at hma
          exact Option.noConfusion hma
      obtain ⟨ms1, m, ms2, hsc, h1, h2, h3, h4, h5, h6, h7, h8⟩ :=
        ih (p + 1) hplt (by omega)
      refine ⟨ms1, m, ms2, ?_, h1, h2, h3, h4, h5, h6, h7, h8⟩
      rw [hstep, hma]
      exact hsc
    | some m0 =>
      rcases matchAt_classify k hpre hw0 hck hcm hw1 hw1a hv hva hw2 hw2a hw3 hw3a
        ht hta hp hma with hle | ⟨hk0, hv0, ht0, hg0, he0⟩
      · have hplt : p < pre.length := by
          rcases Nat.lt_or_ge p pre.length with h | h
          · exact h
          · exfalso
            have hpe : p = pre.length := le_antisymm hp h
            rw [hpe, matchAt_at_linestart k hpre hw0 hck hcm hw1 hw1a hv hva hw2 hw2a
              hw3 hw3a ht hta] at hma
            injection hma with hma2
            rw [← hma2] at hle
            dsimp only at hle
            omega
        have hmax : max m0.mend (p + 1) ≤ pre.length := max_le hle (by omega)
        obtain ⟨ms1, m, ms2, hsc, h1, h2, h3, h4, h5, h6, h7, h8⟩ :=
          ih (max m0.mend (p + 1)) hmax
            (by have hmr := le_max_right m0.mend (p + 1); omega)
        refine ⟨m0 :: ms1, m, ms2, ?_, h1, h2, h3, h4, h5, h6, ?_, h8⟩
        · rw [hstep, hma, List.cons_append]
          exact congrArg (List.cons m0) hsc
        · intro x hx
          rcases List.mem_cons.mp hx with hx | hx
          · subst hx
            exact hle
          · exact h7 x hx
      · refine ⟨[], m0, scanAux (pre ++ (w0 ++ (ck ++ (w1 ++ (v ++ (w2 ++ (cm ++ (w3
            ++ (t ++ '.' :: post))))))))) f (max m0.mend (p + 1)), ?_, hk0, hv0, ht0,
          hg0, ?_, he0, ?_, ?_⟩
        · rw [hstep, hma, List.nil_append]
        · rw [matchAt_mstart hma]
          exact hp
        · intro x hx
          cases hx
        · intro x hx
          have hge := scanAux_mstart_ge _ f (max m0.mend (p + 1)) x hx
          rw [← he0]
          exact le_trans (le_max_left m0.mend (p + 1)) hge

/-- C1, amended: every well-formed statement of one of the four kinds
(keyword, value, middle keyword, target in case-variant spelling,
separated by nonempty whitespace runs that may include newlines, with
operands nonempty word-character runs, terminated by a period) that
begins at the start of a line - after any prefix that is empty or ends
in a newline, optionally indented by whitespace, and with arbitrary
text after it - is detected as exactly one match, whose kind, value
and target reflect the statement verbatim: the scan output contains
exactly one match overlapping the statement (every other match ends
inside the prefix or starts after the statement), its stmt group is
the statement without its period, and its span ends at the statement
period. -/
theorem wellformed_statement_at_line_start_detected (k : Kind)
    (pre w0 ck cm w1 v w2 w3 t post : List Char)
    (hpre : pre = [] ∨ ∃ q, pre = q ++ ['\n'])
    (hw0 : w0.all isSpacePy = true)
    (hck : ciEqList k.keyword ck = true) (hcm : ciEqList k.midword cm = true)
    (hw1 : w1 ≠ []) (hw1a : w1.all isSpacePy = true)
    (hv : v ≠ []) (hva : v.all isWordPy = true)
    (hw2 : w2 ≠ []) (hw2a : w2.all isSpacePy = true)
    (hw3 : w3 ≠ []) (hw3a : w3.all isSpacePy = true)
    (ht : t ≠ []) (hta : t.all isWordPy = true) :
    ∃ ms1 m ms2,
      findAll (pre ++ w0 ++ ck ++ w1 ++ v ++ w2 ++ cm ++ w3 ++ t ++ '.' :: post)
          = ms1 ++ m :: ms2
        ∧ m.kind = k ∧ m.value = v ∧ m.target = t
        ∧ m.stmtGroup = ck ++ w1 ++ v ++ w2 ++ cm ++ w3 ++ t
        ∧ m.mstart ≤ pre.length
        ∧ m.mend = pre.length + w0.length + ck.length + w1.length + v.length
            + w2.length + cm.length + w3.length + t.length + 1
        ∧ (∀ x ∈ ms1, x.mend ≤ pre.length)
        ∧ (∀ x ∈ ms2, pre.length + w0.length + ck.length + w1.length + v.length
            + w2.length + cm.length + w3.length + t.length + 1 ≤ x.mstart) := by
  have ha : pre ++ w0 ++ ck ++ w1 ++ v ++ w2 ++ cm ++ w3 ++ t ++ '.' :: post
      = pre ++ (w0 ++ (ck ++ (w1 ++ (v ++ (w2 ++ (cm ++ (w3 ++ (t ++ '.' :: post)))))))) := by
    simp [List.append_assoc]
  have hb : ck ++ w1 ++ v ++ w2 ++ cm ++ w3 ++ t
      = ck ++ (w1 ++ (v ++ (w2 ++ (cm ++ (w3 ++ t))))) := by
    simp [List.append_assoc]
  rw [ha, hb]
  exact scanAux_decomp k hpre (List.all_eq_true.mp hw0) hck hcm
    hw1 (List.all_eq_true.mp hw1a) hv (List.all_eq_true.mp hva)
    hw2 (List.all_eq_true.mp hw2a) hw3 (List.all_eq_true.mp hw3a)
    ht (List.all_eq_true.mp hta)
    ((pre ++ (w0 ++ (ck ++ (w1 ++ (v ++ (w2 ++ (cm ++ (w3
      ++ (t ++ '.' :: post))))))))).length + 1) 0
    (Nat.zero_le pre.length) (by omega)

/-- C1, witness: a SUBTRACT statement in case-variant spelling with a
newline inside it, on the second line of a text whose first line holds
an ADD statement and whose tail holds a mid-line (undetected) MULTIPLY
statement; the amended theorem instantiated there. -/
theorem wellformed_statement_detected_witness :
    (("ADD 1 TO X.\n").toList = ("ADD 1 TO X.").toList ++ ['\n']
        ∧ ciEqList Kind.SUBTRACT.keyword (("sUbTrAcT").toList) = true
        ∧ ciEqList Kind.SUBTRACT.midword (("From").toList) = true
        ∧ (['\n'] : List Char).all isSpacePy = true)
      ∧ (∃ ms1 m ms2,
          findAll (("ADD 1 TO X.\n").toList ++ [' '] ++ ("sUbTrAcT").toList ++ [' ']
              ++ ("2").toList ++ ['\n'] ++ ("From").toList ++ [' '] ++ ("Y").toList
              ++ '.' :: (" MULTIPLY 3 BY Z.").toList)
            = ms1 ++ m :: ms2
          ∧ m.kind = Kind.SUBTRACT ∧ m.value = ("2").toList ∧ m.target = ("Y").toList
          ∧ m.stmtGroup = ("sUbTrAcT").toList ++ [' '] ++ ("2").toList ++ ['\n']
              ++ ("From").toList ++ [' '] ++ ("Y").toList
          ∧ m.mstart ≤ (("ADD 1 TO X.\n").toList).length
          ∧ m.mend = (("ADD 1 TO X.\n").toList).length + ([' '] : List Char).length
              + (("sUbTrAcT").toList).length + ([' '] : List Char).length
              + (("2").toList).length + (['\n'] : List Char).length
              + (("From").toList).length + ([' '] : List Char).length
              + (("Y").toList).length + 1
          ∧ (∀ x ∈ ms1, x.mend ≤ (("ADD 1 TO X.\n").toList).length)
          ∧ (∀ x ∈ ms2, (("ADD 1 TO X.\n").toList).length + ([' '] : List Char).length
              + (("sUbTrAcT").toList).length + ([' '] : List Char).length
              + (("2").toList).length + (['\n'] : List Char).length
              + (("From").toList).length + ([' '] : List Char).length
              + (("Y").toList).length + 1 ≤ x.mstart)) :=
  ⟨⟨rfl, by decide, by decide, by decide⟩,
    wellformed_statement_at_line_start_detected Kind.SUBTRACT
      (("ADD 1 TO X.\n").toList) [' '] (("sUbTrAcT").toList) (("From").toList)
      [' '] (("2").toList) ['\n'] [' '] (("Y").toList) ((" MULTIPLY 3 BY Z.").toList)
      (Or.inr ⟨("ADD 1 TO X.").toList, rfl⟩)
      (by decide) (by decide) (by decide) (by decide) (by decide) (by decide)
      (by decide) (by decide) (by decide) (by decide) (by decide) (by decide)
      (by decide)⟩

/-! ### The scan output as a map over the matches -/

theorem scan_findings_eq {u : Unit} {fs : List Finding}
    (h : (scan_unit u).findings = some fs) :
    fs = (findAll (srcOf u)).map (findingOfMatch u) := by
  unfold scan_unit at h
  dsimp only at h
  split at h
  · cases h
  · injection h with h2
    exact h2.symm

theorem forall2_map_self {α β : Type} (f : α → β) (P : β → α → Prop)
    (l : List α) (h : ∀ a ∈ l, P (f a) a) :
    List.Forall₂ P (l.map f) l := by
  induction l with
  | nil => exact List.Forall₂.nil
  | cons a l ih =>
    exact List.Forall₂.cons (h a (List.mem_cons_self a l))
      (ih fun x hx => h x (List.mem_cons_of_mem a hx))

/-! ### Claim C2 -/

/-- C2: for every unit with start line L, each finding of the scan
reports as starting line L plus the number of newline characters of the
unit's source text strictly before the start offset of its match (the
0-indexed line index of the match start), pairing the findings with the
raw matches in order. -/
theorem finding_line_number_correct (u : Unit) (fs : List Finding)
    (h : (scan_unit u).findings = some fs) :
    List.Forall₂ (fun fnd m => fnd.starting_line
        = some (u.start_line + ((((srcOf u).take m.mstart).count '\n' : Nat) : Int)))
      fs (findAll (srcOf u)) := by
  rw [scan_findings_eq h]
  exact forall2_map_self _ _ _ (fun m hm => rfl)

/-- C2, witness: a two-line unit starting at line 10; the two findings
report lines 10 and 11 via the newline count before each match. -/
theorem finding_line_number_correct_witness :
    (scan_unit unit2).findings = some findings2
      ∧ List.Forall₂ (fun fnd m => fnd.starting_line
          = some (unit2.start_line + ((((srcOf unit2).take m.mstart).count '\n' : Nat) : Int)))
        findings2 (findAll (srcOf unit2)) :=
  ⟨by decide, finding_line_number_correct unit2 findings2 (by decide)⟩

/-! ### Claim C3 -/

/-- C3: every finding's suggestion is exactly
Replace matchedText with target operator value (in quoted rendering),
where the operator comes from the fixed table ADD to +=, SUBTRACT to
-=, MULTIPLY to *=, DIVIDE to /=; the operand order keeps the target
on the left, in particular for SUBTRACT. -/
theorem finding_suggestion_correct (u : Unit) (fs : List Finding)
    (h : (scan_unit u).findings = some fs) :
    List.Forall₂ (fun fnd m => fnd.suggestion
        = some (suggestionSpec m.kind (pyStrip m.stmtGroup).asString
            m.target.asString m.value.asString))
      fs (findAll (srcOf u)) := by
  rw [scan_findings_eq h]
  refine forall2_map_self _ _ _ (fun m hm => ?_)
  rcases m with ⟨k, v, t, s, e, g⟩
  cases k <;> rfl

/-- C3, witness: a SUBTRACT and a DIVIDE statement; the rendered
suggestions keep the target on the left of the compound assignment. -/
theorem finding_suggestion_correct_witness :
    (scan_unit unit3).findings = some findings3
      ∧ List.Forall₂ (fun fnd m => fnd.suggestion
          = some (suggestionSpec m.kind (pyStrip m.stmtGroup).asString
              m.target.asString m.value.asString))
        findings3 (findAll (srcOf unit3)) :=
  ⟨by decide, finding_suggestion_correct unit3 findings3 (by decide)⟩

/-! ### Claim C4 -/

/-- C4: the unit with pgm_name P1, start_line 100 and code
ADD 1 TO X. newline SUBTRACT 2 FROM Y. yields exactly two findings, in
order: starting line 100 with ObsoleteADDUsage, then starting line 101
with ObsoleteSUBTRACTUsage. -/
theorem end_to_end_scenario :
    ((scan_unit unit4).findings.getD []).map (fun f => (f.starting_line, f.issues_type))
        = [(some (100 : Int), some ("ObsoleteADDUsage")),
           (some (101 : Int), some ("ObsoleteSUBTRACTUsage"))]
      ∧ ((scan_unit unit4).findings.getD []).length = 2 := by
  exact ⟨by decide, by decide⟩

/-! ### Claim C5 -/

/-- C5: the statement ADD newline 1 TO X. spanning two physical lines
is detected (one match, kind ADD, value 1, target X, starting at offset
0), and in general every finding's snippet is the single text line
containing the match start (bounded by the nearest newlines or the text
ends) with embedded newlines escaped to backslash-n; on the edge-case
unit the snippet is exactly ADD. -/
theorem multiline_statement_snippet :
    (findAll (("ADD\n 1 TO X.").toList)).map
        (fun m => (m.kind, m.value, m.target, m.mstart))
        = [(Kind.ADD, ("1").toList, ("X").toList, 0)]
      ∧ (∀ (u : Unit) (fs : List Finding), (scan_unit u).findings = some fs →
          List.Forall₂ (fun fnd m => fnd.snippet
              = some ((escapeNewlines (extract_exact_line (srcOf u) m.mstart)).asString))
            fs (findAll (srcOf u)))
      ∧ ((scan_unit unit5).findings.getD []).map (fun f => f.snippet) = [some ("ADD")] := by
  refine ⟨by decide, ?_, by decide⟩
  intro u fs h
  rw [scan_findings_eq h]
  exact forall2_map_self _ _ _ (fun m hm => rfl)

/-- C5, witness: the snippet law instantiated on the two-physical-line
edge-case unit. -/
theorem multiline_statement_snippet_witness :
    (scan_unit unit5).findings = some findings5
      ∧ List.Forall₂ (fun fnd m => fnd.snippet
          = some ((escapeNewlines (extract_exact_line (srcOf unit5) m.mstart)).asString))
        findings5 (findAll (srcOf unit5)) :=
  ⟨by decide, multiline_statement_snippet.2.1 unit5 findings5 (by decide)⟩

/-! ### Claim C6 -/

/-- C6: scan_unit is a pure copy: the returned unit keeps every
identity and metadata field of the input (which, being a value, is
unchanged), and only the findings field is set - to the ordered list of
findings when nonempty, and to the absence value none otherwise. -/
theorem scan_unit_pure_copy (u : Unit) :
    (scan_unit u).pgm_name = u.pgm_name
      ∧ (scan_unit u).inc_name = u.inc_name
      ∧ (scan_unit u).type = u.type
      ∧ (scan_unit u).name = u.name
      ∧ (scan_unit u).class_implementation = u.class_implementation
      ∧ (scan_unit u).start_line = u.start_line
      ∧ (scan_unit u).end_line = u.end_line
      ∧ (scan_unit u).code = u.code
      ∧ (scan_unit u).findings
          = (if ((findAll (srcOf u)).map (findingOfMatch u)).isEmpty then none
             else some ((findAll (srcOf u)).map (findingOfMatch u))) :=
  ⟨rfl, rfl, rfl, rfl, rfl, rfl, rfl, rfl, rfl⟩

/-! ### Claim C7 -/

/-- C7: a unit in which the scan detects zero findings is excluded from
the batch endpoint's output, while the single-unit endpoint returns it
with findings set to the explicit absence value none (never an empty
list). -/
theorem zero_findings_policy (u : Unit) (us : List Unit)
    (h : findAll (srcOf u) = []) :
    arithmetic_array (us ++ [u]) = arithmetic_array us
      ∧ arithmetic_single u = { u with findings := none } := by
  have hs : scan_unit u = { u with findings := none } := by
    unfold scan_unit
    rw [h]
    rfl
  constructor
  · unfold arithmetic_array
    rw [List.map_append, List.filter_append]
    simp [hs, findingsTruthy]
  · exact hs

/-- C7, witness: a batch of one matching and one non-matching unit; the
non-matching unit is dropped from the batch result and returned with
none findings by the single endpoint. -/
theorem zero_findings_policy_witness :
    findAll (srcOf unit7a) = []
      ∧ (arithmetic_array ([unit7b] ++ [unit7a]) = arithmetic_array [unit7b]
        ∧ arithmetic_single unit7a = { unit7a with findings := none }) :=
  ⟨by decide, zero_findings_policy unit7a [unit7b] (by decide)⟩

/-! ### Claim C8 -/

/-- C8: empty or null source text produces zero matches and a unit with
absent findings (the scan is a total function, so no input raises an
error); non-conforming text such as a COMPUTE statement or a statement
missing its terminating period yields no matches. -/
theorem no_error_on_empty_or_nonmatching (u : Unit)
    (h : u.code = none ∨ u.code = some "") :
    (scan_unit u).findings = none
      ∧ findAll (("COMPUTE X = 1 + 2.").toList) = []
      ∧ findAll (("ADD 1 TO X").toList) = [] := by
  refine ⟨?_, by decide, by decide⟩
  have hsrc : srcOf u = [] := by
    rcases h with h | h <;> simp [srcOf, h]
  show (if ((findAll (srcOf u)).map (findingOfMatch u)).isEmpty then none
      else some ((findAll (srcOf u)).map (findingOfMatch u))) = none
  rw [hsrc]
  rfl

/-- C8, witness: a unit with null code scans to absent findings. -/
theorem no_error_on_empty_or_nonmatching_witness :
    (unit8.code = none ∨ unit8.code = some "")
      ∧ ((scan_unit unit8).findings = none
        ∧ findAll (("COMPUTE X = 1 + 2.").toList) = []
        ∧ findAll (("ADD 1 TO X").toList) = []) :=
  ⟨Or.inl rfl, no_error_on_empty_or_nonmatching unit8 (Or.inl rfl)⟩

/-! ### Claim C9 -/

/-- C9: scanning is deterministic and restartable: scan_unit is
idempotent (applying it to its own output returns the same value, so
re-scanning yields the identical findings list), and its findings
depend only on the code and metadata of the unit, not on the incoming
findings field. -/
theorem scan_deterministic_idempotent :
    (∀ u : Unit, scan_unit (scan_unit u) = scan_unit u)
      ∧ (∀ (u : Unit) (fs : Option (List Finding)),
          (scan_unit { u with findings := fs }).findings = (scan_unit u).findings) := by
  constructor
  · intro u
    rcases u with ⟨p, i, ty, n, ci, sl, el, c, f⟩
    rfl
  · intro u fs
    rcases u with ⟨p, i, ty, n, ci, sl, el, c, f⟩
    rfl

/-! ### Claim C10 -/

/-- C10: every finding of the scan has severity error, issue type
Obsolete Kind Usage with the kind of its raw match (one of ADD,
SUBTRACT, MULTIPLY, DIVIDE), ending line equal to starting line,
message Obsolete Kind statement detected, and the program name, include
name, type and block name copied from the owning unit. -/
theorem finding_invariants (u : Unit) (fs : List Finding)
    (h : (scan_unit u).findings = some fs) :
    List.Forall₂ (fun fnd m =>
        fnd.severity = some ("error")
        ∧ fnd.issues_type = some ("Obsolete" ++ kindStr m.kind ++ "Usage")
        ∧ (kindStr m.kind = "ADD" ∨ kindStr m.kind = "SUBTRACT"
            ∨ kindStr m.kind = "MULTIPLY" ∨ kindStr m.kind = "DIVIDE")
        ∧ fnd.ending_line = fnd.starting_line
        ∧ fnd.message = some ("Obsolete '" ++ kindStr m.kind ++ "' statement detected.")
        ∧ fnd.prog_name = some u.pgm_name
        ∧ fnd.incl_name = some u.inc_name
        ∧ fnd.types = some u.type
        ∧ fnd.blockname = u.name)
      fs (findAll (srcOf u)) := by
  rw [scan_findings_eq h]
  refine forall2_map_self _ _ _ (fun m hm => ?_)
  rcases m with ⟨k, v, t, s, e, g⟩
  refine ⟨rfl, rfl, ?_, rfl, rfl, rfl, rfl, rfl, rfl⟩
  cases k
  · exact Or.inl rfl
  · exact Or.inr (Or.inl rfl)
  · exact Or.inr (Or.inr (Or.inl rfl))
  · exact Or.inr (Or.inr (Or.inr rfl))

/-- C10, witness: the invariants instantiated on a unit with a DIVIDE
and a MULTIPLY statement. -/
theorem finding_invariants_witness :
    (scan_unit unit10).findings = some findings10
      ∧ List.Forall₂ (fun fnd m =>
          fnd.severity = some ("error")
          ∧ fnd.issues_type = some ("Obsolete" ++ kindStr m.kind ++ "Usage")
          ∧ (kindStr m.kind = "ADD" ∨ kindStr m.kind = "SUBTRACT"
              ∨ kindStr m.kind = "MULTIPLY" ∨ kindStr m.kind = "DIVIDE")
          ∧ fnd.ending_line = fnd.starting_line
          ∧ fnd.message = some ("Obsolete '" ++ kindStr m.kind ++ "' statement detected.")
          ∧ fnd.prog_name = some unit10.pgm_name
          ∧ fnd.incl_name = some unit10.inc_name
          ∧ fnd.types = some unit10.type
          ∧ fnd.blockname = unit10.name)
        findings10 (findAll (srcOf unit10)) :=
  ⟨by decide, finding_invariants unit10 findings10 (by decide)⟩

end App
